import Mathlib

/-!
Verification of the markdown content-transformation pipeline of the blog
repository (source file: the module exporting `renderMarkdown`).

The pipeline's own functions (`normalizeLanguage`, `getHighlightedCode`,
`renderer.image`, the definition-list tokenizer and renderer, the
`sanitizeHtml` policy object and its anchor transform, and `renderMarkdown`
itself) are translated here as executable Lean definitions.  Third-party
collaborators (the `marked` parser, `highlight.js`, and the `sanitize-html`
filtering engine) are not part of the repository; where a claim depends on
them they are either abstracted as function parameters or modelled from the
specification, as noted on each definition.
-/

namespace MdPipeline

/-- Character class of the JavaScript regular-expression `\s` (and of
`String.prototype.trim`): ASCII whitespace, NBSP, BOM, and the Unicode
space separators / line separators. -/
def isJsWs (c : Char) : Bool :=
  c == ' ' || c == '\t' || c == '\n' || c == '\r' ||
  c.toNat == 0x0b || c.toNat == 0x0c || c.toNat == 0xa0 || c.toNat == 0x1680 ||
  (0x2000 ≤ c.toNat && c.toNat ≤ 0x200a) ||
  c.toNat == 0x2028 || c.toNat == 0x2029 || c.toNat == 0x202f ||
  c.toNat == 0x205f || c.toNat == 0x3000 || c.toNat == 0xfeff

/-- Drop JS whitespace from both ends of a character list. -/
def jsTrimChars (l : List Char) : List Char :=
  ((l.dropWhile isJsWs).reverse.dropWhile isJsWs).reverse

/-- JavaScript `String.prototype.trim`. -/
def jsTrim (s : String) : String :=
  String.mk (jsTrimChars s.data)

/-- Accumulator-style splitting of a character list into maximal runs of
non-whitespace characters (the words of the list). -/
def wordsAux : List Char → List Char → List (List Char)
  | acc, [] => if acc.isEmpty then [] else [acc.reverse]
  | acc, c :: cs =>
    if isJsWs c then
      if acc.isEmpty then wordsAux [] cs else acc.reverse :: wordsAux [] cs
    else wordsAux (c :: acc) cs

/-- The whitespace-delimited words of a character list. -/
def wordsChar (l : List Char) : List (List Char) :=
  wordsAux [] l

/-- JavaScript `s.split(/\s+/)` with empty fragments removed — exactly what
the anchor transform computes via `.split(/\s+/).map(trim).filter(Boolean)`
(fragments produced by `split(/\s+/)` contain no whitespace, so the interior
`trim` is the identity on them). -/
def jsWords (s : String) : List String :=
  (wordsChar s.data).map String.mk

/-- Join character lists with a single space between them (JavaScript
`Array.prototype.join(' ')` at the character level). -/
def joinSpaceChar : List (List Char) → List Char
  | [] => []
  | [w] => w
  | w :: ws => w ++ ' ' :: joinSpaceChar ws

/-- JavaScript `Array.prototype.join(' ')` on strings. -/
def joinSpace (l : List String) : String :=
  String.mk (joinSpaceChar (l.map String.data))

/-- Insertion into a JavaScript `Set` viewed as its insertion-order element
list: adding an element already present leaves the set unchanged, a new
element goes to the end. -/
def insertNew (l : List String) (x : String) : List String :=
  if x ∈ l then l else l ++ [x]

/-- The element list of `new Set(l)` in insertion order (first occurrence
of each element is kept). -/
def setOfList (l : List String) : List String :=
  l.foldl insertNew []

/-- Replace every occurrence of the character `c` by the list `r` (the
character-level meaning of a JavaScript global single-character
`String.prototype.replace`). -/
def replaceAllChar (c : Char) (r : List Char) : List Char → List Char
  | [] => []
  | a :: as => if a == c then r ++ replaceAllChar c r as else a :: replaceAllChar c r as

/-- The module's `escapeHtml` helper: five sequential global replacements,
each of a single character, applied in the source's order (`&` first). -/
def escapeHtml (value : String) : String :=
  String.mk (replaceAllChar '\x27' "&#39;".data
    (replaceAllChar '"' "&quot;".data
      (replaceAllChar '>' "&gt;".data
        (replaceAllChar '<' "&lt;".data
          (replaceAllChar '&' "&amp;".data value.data)))))

/-- The `CODE_LANGUAGE_ALIASES` table of the source, as an association list. -/
def CODE_LANGUAGE_ALIASES : List (String × String) :=
  [("js", "javascript"), ("jsx", "javascript"), ("ts", "typescript"),
   ("tsx", "typescript"), ("sh", "bash"), ("shell", "bash"), ("bash", "bash"),
   ("zsh", "bash"), ("py", "python"), ("plaintext", "plaintext"),
   ("text", "plaintext"), ("jsonc", "json")]

/-- The ASCII fragment of JavaScript `String.prototype.toLowerCase`
(character-by-character lowering of `A`–`Z`).  The full function also
lowercases non-ASCII letters, so statements that depend on lowercasing
restrict their inputs to ASCII, where the two functions agree. -/
def jsToLower (s : String) : String :=
  String.mk (s.data.map Char.toLower)

/-- The value the JS member read `CODE_LANGUAGE_ALIASES[firstToken]`
can produce: a string (an own property of the object literal, or the
fallback token itself), or a member inherited from `Object.prototype` —
a function or object, not a string, which `?? firstToken` does not
replace because it is neither `null` nor `undefined`. -/
inductive LangResult where
  | str : String → LangResult
  | inherited : String → LangResult
deriving DecidableEq

/-- The own property keys of `Object.prototype` that a plain object
literal inherits: reading one of them on `CODE_LANGUAGE_ALIASES` yields
the inherited member instead of `undefined`. -/
def OBJECT_PROTOTYPE_KEYS : List String :=
  ["constructor", "hasOwnProperty", "isPrototypeOf", "propertyIsEnumerable",
   "toLocaleString", "toString", "valueOf", "__defineGetter__",
   "__defineSetter__", "__lookupGetter__", "__lookupSetter__", "__proto__"]

/-- The source's `normalizeLanguage`: trim and lowercase the raw tag, map
the empty result to `plaintext`, otherwise take the first
whitespace-delimited token (`base.split(/\s+/)[0] ?? base`) and read
`CODE_LANGUAGE_ALIASES[firstToken] ?? firstToken`.  The member read is a
JS object lookup: an own property of the literal gives its string value;
a key inherited from `Object.prototype` (such as `constructor` or
`__proto__`) gives the inherited member, which the `??` operator keeps;
only a genuinely absent key falls back to the token itself. -/
def normalizeLanguage (value : Option String) : LangResult :=
  let base := jsToLower (jsTrim (value.getD ""))
  if base = "" then LangResult.str "plaintext"
  else
    let firstToken := (jsWords base).headD base
    match CODE_LANGUAGE_ALIASES.lookup firstToken with
    | some v => LangResult.str v
    | none =>
      if OBJECT_PROTOTYPE_KEYS.contains firstToken then
        LangResult.inherited firstToken
      else LangResult.str firstToken

/-- The grammars registered with the highlighter at module load (the eleven
`hljs.registerLanguage` calls guarded by `hljs.getLanguage`). -/
def registeredLanguages : List String :=
  ["bash", "css", "javascript", "json", "markdown", "plaintext", "python",
   "sql", "typescript", "xml", "yaml"]

/-- The source's `getHighlightedCode`.  The underlying highlighter
(`hljs.highlight`, third-party) is abstracted as a parameter that may fail
(`Except Unit` models a thrown exception); the `try/catch` of the source
becomes the `Except.error` branch returning `none`.  The registry check
`hljs.getLanguage(language)` is evaluated against the concrete module-load
registry `registeredLanguages`. -/
def getHighlightedCode (hl : String → String → Except Unit String)
    (source language : String) : Option String :=
  if source.isEmpty then none
  else if language.isEmpty || language == "plaintext" then none
  else if !(registeredLanguages.contains language) then none
  else
    match hl source language with
    | Except.ok v => some v
    | Except.error _ => none

/-- The token handed to the image renderer: `href`, `text` and `title` are
each either a string or absent (`typeof token.x === 'string'` guards). -/
structure ImageToken where
  href : Option String
  text : Option String
  title : Option String
deriving DecidableEq

/-- The source's `renderer.image` override: trims `href` only, escapes all
three values, pushes the optional `title` and then the fixed attributes,
and joins with single spaces. -/
def renderImage (token : ImageToken) : String :=
  let source := jsTrim (token.href.getD "")
  let altText := token.text.getD ""
  let titleText := token.title.getD ""
  let attributes := ["src=\"" ++ escapeHtml source ++ "\"",
                     "alt=\"" ++ escapeHtml altText ++ "\""]
  let attributes :=
    if titleText ≠ "" then attributes ++ ["title=\"" ++ escapeHtml titleText ++ "\""]
    else attributes
  let attributes := attributes ++
    ["loading=\"lazy\"", "decoding=\"async\"", "referrerpolicy=\"no-referrer\"",
     "fetchpriority=\"auto\"", "class=\"markdown-image\""]
  "<img " ++ joinSpace attributes ++ ">"

/-- Image renderer as the claim words it: `src`, `alt` and (when present)
`title` would all carry the trimmed token values.  Written only to be
compared with `renderImage`, which is the translation of the source. -/
def claimRenderImage (token : ImageToken) : String :=
  let source := jsTrim (token.href.getD "")
  let altText := jsTrim (token.text.getD "")
  let titleText := jsTrim (token.title.getD "")
  let attributes := ["src=\"" ++ escapeHtml source ++ "\"",
                     "alt=\"" ++ escapeHtml altText ++ "\""]
  let attributes :=
    if titleText ≠ "" then attributes ++ ["title=\"" ++ escapeHtml titleText ++ "\""]
    else attributes
  let attributes := attributes ++
    ["loading=\"lazy\"", "decoding=\"async\"", "referrerpolicy=\"no-referrer\"",
     "fetchpriority=\"auto\"", "class=\"markdown-image\""]
  "<img " ++ joinSpace attributes ++ ">"

/-- The source's `renderMarkdown` entry point, with the two downstream
stages abstracted: `parse` stands for `markdown.parse` (the `marked`
library with the repository's renderer and extension installed) and
`sanitize` for the `sanitizeHtml` call with the repository's policy.
`none` models a `null`/`undefined` input (`typeof input === 'string'`
fails, so the source becomes the empty string). -/
def renderMarkdownWith (parse sanitize : String → String)
    (input : Option String) : String :=
  let source := input.getD ""
  if jsTrim source = "" then "" else sanitize (parse source)

/-- Number of leading literal space characters. -/
def countLeadingSpaces : List Char → Nat
  | [] => 0
  | c :: cs => if c == ' ' then countLeadingSpaces cs + 1 else 0

/-- Does the input begin with two newlines (the `/^\n{2,}/` test)? -/
def startsWithTwoNewlines (s : List Char) : Bool :=
  match s with
  | c1 :: c2 :: _ => c1 == '\n' && c2 == '\n'
  | _ => false

/-- The term-line regular expression
`^( {0,3}(?![:\s])\S[^\n]*)(?:\n|$)` of the definition-list tokenizer: up
to three leading spaces, a first character that is neither a colon nor
whitespace, the rest of the line, and an optional terminating newline.
Returns the captured group and the input after the whole match. -/
def matchTerm (s : List Char) : Option (List Char × List Char) :=
  let n := countLeadingSpaces s
  if n > 3 then none
  else
    match s.drop n with
    | [] => none
    | c :: cs =>
      if c == ':' || isJsWs c then none
      else
        let line := cs.takeWhile (fun d => !(d == '\n'))
        let group := List.replicate n ' ' ++ c :: line
        match cs.dropWhile (fun d => !(d == '\n')) with
        | [] => some (group, [])
        | _ :: r => some (group, r)

/-- The definition-line regular expression `^( {0,3}:\s.*)(?:\n|$)`: up to
three leading spaces, a colon, one whitespace character (which, as in the
JS `\s`, may itself be a newline), the rest of the line, and an optional
terminating newline.  Returns the captured group and the remaining
input. -/
def matchDefinition (s : List Char) : Option (List Char × List Char) :=
  let n := countLeadingSpaces s
  if n > 3 then none
  else
    match s.drop n with
    | ':' :: w :: cs =>
      if isJsWs w then
        let line := cs.takeWhile (fun d => !(d == '\n'))
        let group := List.replicate n ' ' ++ ':' :: w :: line
        match cs.dropWhile (fun d => !(d == '\n')) with
        | [] => some (group, [])
        | _ :: r => some (group, r)
      else none
    | _ => none

/-- The replacement `.replace(/^\s*:\s?/, '')` applied to a captured
definition line: drop leading whitespace, one colon, and at most one
following whitespace character; when the pattern is absent the input is
returned unchanged. -/
def stripDefMarker (g : List Char) : List Char :=
  match g.dropWhile isJsWs with
  | ':' :: rest =>
    match rest with
    | r :: rs => if isJsWs r then rs else rest
    | [] => []
  | _ => g

/-- One entry of the definition-list token: the trimmed term text and the
trimmed text of each of its definitions — exactly the strings the source
hands to `this.lexer.inlineTokens` (the `marked` inline tokenizer, a
third-party routine, is kept as text here). -/
structure DefListItem where
  term : String
  descriptions : List String
deriving DecidableEq

/-- The custom block token `{ type: 'definitionList', raw, items }`. -/
structure DefListToken where
  raw : String
  items : List DefListItem
deriving DecidableEq

/-- The inner `while` loop of the tokenizer: consume consecutive
definition lines, collecting the stripped and trimmed content of each;
returns the collected descriptions, the remaining input, and the
`hasDefinition` flag.  `fuel` bounds the recursion; every iteration
consumes at least two characters, so the allowance of one unit per input
character plus one never runs out. -/
def takeDefs : Nat → List Char → List String × List Char × Bool
  | 0, s => ([], s, false)
  | fuel + 1, s =>
    match matchDefinition s with
    | none => ([], s, false)
    | some (g, r) =>
      let t := takeDefs fuel r
      (String.mk (jsTrimChars (stripDefMarker g)) :: t.1, t.2.1, true)

/-- The outer `while` loop of the tokenizer over the remaining input,
returning the collected items together with the number of characters
consumed through the last successful entry and its trailing blank lines
(the JS `lastPosition`).  A candidate term with no following definition
line makes the loop backtrack and stop, contributing nothing; after a
successful entry the loop only continues when the next line looks like a
term line again. -/
def defListItems : Nat → List Char → List DefListItem × Nat
  | 0, _ => ([], 0)
  | fuel + 1, s =>
    if s.isEmpty then ([], 0)
    else if startsWithTwoNewlines s then ([], 0)
    else
      match matchTerm s with
      | none => ([], 0)
      | some (g, r) =>
        let d := takeDefs (r.length + 1) r
        if d.2.2 = false then ([], 0)
        else
          let item : DefListItem := ⟨String.mk (jsTrimChars g), d.1⟩
          let r3 := d.2.1.dropWhile (fun c => c == '\n')
          let consumed := s.length - r3.length
          if (matchTerm r3).isSome then
            let next := defListItems fuel r3
            (item :: next.1, consumed + next.2)
          else ([item], consumed)

/-- The tokenizer entry of the `definitionList` extension: the token (raw
consumed span plus structured items), or `undefined` (here `none`) when no
entry was collected. -/
def defListTokenizer (src : String) : Option DefListToken :=
  let res := defListItems (src.data.length + 1) src.data
  if res.1.isEmpty then none
  else some ⟨String.mk (src.data.take res.2), res.1⟩

/-- The renderer of the `definitionList` extension: a `dl` wrapping, for
each item, one `dt` with the inline-rendered term followed by one `dd` per
inline-rendered description, joined with no separator.  The shared inline
renderer (`this.parser.parseInline`, third-party) is abstracted as the
`parseInline` parameter. -/
def renderDefinitionList (parseInline : String → String)
    (token : DefListToken) : String :=
  let parts := ["<dl>"] ++
    (token.items.map (fun item =>
      ("<dt>" ++ parseInline item.term ++ "</dt>") ::
        item.descriptions.map (fun d => "<dd>" ++ parseInline d ++ "</dd>"))).flatten ++
    ["</dl>"]
  String.join parts

/-! ### The sanitization stage

The `sanitize-html` library re-parses the rendered HTML string and filters
every element against the policy object built in `renderMarkdown`.  The
policy itself (allowed tags, allowed attributes, allowed schemes, and the
anchor transform) is translated directly from the source; the library's
filtering engine is modelled from the spec at the level of parsed
elements: a tag not in the allowlist is dropped, an attribute not allowed
for its tag is dropped, an `href`/`src` whose scheme is outside the
allowed set is dropped, and the anchor transform runs before filtering.
-/

/-- A parsed HTML element: its tag name and its attribute list.  The HTML
parser collapses duplicate attributes to the first occurrence; that
normalization is `dedupAttribs` below. -/
structure Elem where
  tag : String
  attribs : List (String × String)
deriving DecidableEq

/-- Modelled from the spec: the default allowed tags of the
`sanitize-html` engine (`sanitizeHtml.defaults.allowedTags`), the base the
source spreads into its own list. -/
def sanitizeHtmlDefaultAllowedTags : List String :=
  ["address", "article", "aside", "footer", "header", "h1", "h2", "h3",
   "h4", "h5", "h6", "hgroup", "main", "nav", "section", "blockquote",
   "dd", "div", "dl", "dt", "figcaption", "figure", "hr", "li", "main",
   "ol", "p", "pre", "ul", "a", "abbr", "b", "bdi", "bdo", "br", "cite",
   "code", "data", "dfn", "em", "i", "kbd", "mark", "q", "rb", "rp", "rt",
   "rtc", "ruby", "s", "samp", "small", "span", "strong", "sub", "sup",
   "time", "u", "var", "wbr", "caption", "col", "colgroup", "table",
   "tbody", "td", "tfoot", "th", "thead", "tr"]

/-- The source's `allowedTags`:
`Array.from(new Set([...sanitizeHtml.defaults.allowedTags, ...extras]))`. -/
def allowedTags : List String :=
  setOfList (sanitizeHtmlDefaultAllowedTags ++
    ["h1", "h2", "h3", "h4", "h5", "h6", "img", "pre", "code",
     "blockquote", "hr", "table", "thead", "tbody", "tr", "th", "td",
     "figure", "figcaption", "span", "button", "dl", "dt", "dd", "del",
     "s", "details", "summary"])

/-- The source's `allowedAttributes` map.  The spread of
`sanitizeHtml.defaults.allowedAttributes` contributes only the `a` and
`img` entries, and both are overridden by the object literal, so the final
map is exactly the literal's own entries; tags without an entry allow no
attributes. -/
def allowedAttributesFor (tag : String) : List String :=
  if tag == "a" then ["href", "name", "target", "rel", "title"]
  else if tag == "img" then
    ["src", "alt", "title", "width", "height", "class", "loading",
     "decoding", "referrerpolicy", "fetchpriority", "srcset", "sizes"]
  else if tag == "figure" then ["class", "data-language"]
  else if tag == "figcaption" then ["class"]
  else if tag == "pre" then ["class"]
  else if tag == "code" then ["class", "data-language"]
  else if tag == "span" then ["class", "aria-hidden", "data-checked"]
  else if tag == "button" then ["type", "class", "data-action", "data-state"]
  else if tag == "ul" then ["class"]
  else if tag == "li" then ["class"]
  else []

/-- The source's scheme policy: `allowedSchemes: ['http','https','mailto']`
with the per-tag override `allowedSchemesByTag: { img: ['http','https',
'data'] }`. -/
def allowedSchemesFor (tag : String) : List String :=
  if tag == "img" then ["http", "https", "data"]
  else ["http", "https", "mailto"]

/-- A character allowed inside a URL scheme after the leading letter. -/
def isSchemeChar (c : Char) : Bool :=
  c.isAlphanum || c == '+' || c == '-' || c == '.'

/-- Modelled from the spec: the scheme of a URL value as the filtering
engine reads it — a leading letter followed by scheme characters up to a
colon, lowercased; `none` when the value has no scheme (a relative URL,
which the engine leaves alone). -/
def urlScheme (v : String) : Option String :=
  match v.data with
  | [] => none
  | c :: cs =>
    if c.isAlpha then
      match cs.dropWhile isSchemeChar with
      | ':' :: _ =>
        some (String.mk ((c :: cs.takeWhile isSchemeChar).map Char.toLower))
      | _ => none
    else none

/-- Does the input begin with the literal `://`? -/
def startsWithColonSlashSlash (l : List Char) : Bool :=
  match l with
  | a :: b :: c :: _ => a == ':' && b == '/' && c == '/'
  | _ => false

/-- The anchor transform's external test `/^https?:\/\//i.test(href)`:
a case-insensitive literal `http`, an optional `s`, then `://`, at the
start of the value (the `/i` flag on ASCII letters admits exactly the two
case variants of each letter). -/
def isExternalHref (href : String) : Bool :=
  match href.data with
  | c0 :: c1 :: c2 :: c3 :: rest =>
    (c0 == 'h' || c0 == 'H') && (c1 == 't' || c1 == 'T') &&
    (c2 == 't' || c2 == 'T') && (c3 == 'p' || c3 == 'P') &&
    (startsWithColonSlashSlash rest ||
      (match rest with
       | c4 :: rest2 => (c4 == 's' || c4 == 'S') && startsWithColonSlashSlash rest2
       | [] => false))
  | _ => false

/-- First value bound to a key in an attribute list (JS object read). -/
def lookupAttr (l : List (String × String)) (k : String) : Option String :=
  (l.find? (fun p => p.1 == k)).map (fun p => p.2)

/-- JS object write `obj[k] = v`: an existing key keeps its position and
gets the new value, a new key is appended. -/
def setAttr (k v : String) (l : List (String × String)) :
    List (String × String) :=
  if l.any (fun p => p.1 == k) then
    l.map (fun p => if p.1 == k then (k, v) else p)
  else l ++ [(k, v)]

/-- Keep the first occurrence of every attribute name (the HTML parser's
handling of duplicate attributes when `sanitize-html` re-parses). -/
def dedupAttribsAux (seen : List String) :
    List (String × String) → List (String × String)
  | [] => []
  | (k, v) :: rest =>
    if seen.contains k then dedupAttribsAux seen rest
    else (k, v) :: dedupAttribsAux (k :: seen) rest

/-- Attribute-list normalization applied by re-parsing. -/
def dedupAttribs (l : List (String × String)) : List (String × String) :=
  dedupAttribsAux [] l

/-- JavaScript falsiness of an optional attribute value
(`!nextAttribs.target`): absent or the empty string. -/
def jsFalsy : Option String → Bool
  | none => true
  | some s => s.isEmpty

/-- The source's `transformTags.a` function: when `href` matches the
external test, the `rel` tokens are collected into a `Set`, `noopener` and
`noreferrer` are added, the set is joined back with spaces, and `target`
defaults to `_blank` when falsy; otherwise the attributes are returned
unchanged. -/
def transformA (attribs : List (String × String)) : List (String × String) :=
  let href := (lookupAttr attribs "href").getD ""
  if isExternalHref href then
    let relTokens := jsWords ((lookupAttr attribs "rel").getD "")
    let relSet := insertNew (insertNew (setOfList relTokens) "noopener") "noreferrer"
    let a1 := setAttr "rel" (joinSpace relSet) attribs
    if jsFalsy (lookupAttr a1 "target") then setAttr "target" "_blank" a1
    else a1
  else attribs

/-- Modelled from the spec: should one attribute survive filtering — its
name must be allowed for the tag, and an `href`/`src` value with an
explicit scheme must use an allowed scheme for the tag. -/
def keepAttr (tag k v : String) : Bool :=
  (allowedAttributesFor tag).contains k &&
  (if k == "href" || k == "src" then
    match urlScheme v with
    | none => true
    | some s => (allowedSchemesFor tag).contains s
  else true)

/-- Modelled from the spec: the filtering engine's work on one element
whose tag is allowed — normalize the re-parsed attributes, run the anchor
transform on `a` tags, then drop disallowed attributes and disallowed
`href`/`src` schemes. -/
def sanitizeElem (e : Elem) : Elem :=
  let a0 := dedupAttribs e.attribs
  let a1 := if e.tag == "a" then transformA a0 else a0
  { tag := e.tag, attribs := a1.filter (fun p => keepAttr e.tag p.1 p.2) }

/-- Modelled from the spec: the sanitization stage over the parsed element
list of the fragment — drop elements whose tag is not allowlisted and
filter the rest. -/
def sanitizeElems (es : List Elem) : List Elem :=
  (es.filter (fun e => allowedTags.contains e.tag)).map sanitizeElem

/-! ### Helper lemmas on strings and joining -/

/-- Two strings with the same character data are equal. -/
theorem str_eq_of_data {a b : String} (h : a.data = b.data) : a = b := by
  cases a; cases b; cases h; rfl

/-- Appending strings appends their character data. -/
theorem str_data_append (a b : String) : (a ++ b).data = a.data ++ b.data := rfl

/-- The character data of a built string. -/
theorem str_mk_data (l : List Char) : (String.mk l).data = l := rfl

/-- String append is associative. -/
theorem strAppend_assoc (a b c : String) : a ++ b ++ c = a ++ (b ++ c) :=
  str_eq_of_data (by simp [str_data_append])

/-- Joining a two-or-more element list starts with the head and a space. -/
theorem joinSpace_cons_cons (a b : String) (l : List String) :
    joinSpace (a :: b :: l) = a ++ " " ++ joinSpace (b :: l) :=
  str_eq_of_data (by simp [joinSpace, joinSpaceChar, str_data_append])

/-- Joining a singleton list gives its element. -/
theorem joinSpace_single (a : String) : joinSpace [a] = a :=
  str_eq_of_data (by simp [joinSpace, joinSpaceChar])

/-! ### Claim theorems: pipeline entry point, language resolver,
highlighter adapter, image renderer -/

/-- C4: for every input that trims to the empty string, `renderMarkdown`
returns the empty string, whatever the parsing and sanitizing stages are —
in particular without invoking them. -/
theorem claim4_empty_input (parse sanitize : String → String)
    (input : Option String) (h : jsTrim (input.getD "") = "") :
    renderMarkdownWith parse sanitize input = "" := by
  unfold renderMarkdownWith
  simp [h]

/-- Witness for C4 at the spec's concrete inputs `""` and `"   \n"`. -/
theorem claim4_witness :
    renderMarkdownWith (fun s => s) (fun s => s) (some "") = "" ∧
    renderMarkdownWith (fun s => s) (fun s => s) (some "   \n") = "" :=
  ⟨claim4_empty_input _ _ _ (by decide), claim4_empty_input _ _ _ (by decide)⟩

/-- C10: at the public boundary a `null`/`undefined` input (modelled as
`none`) yields the empty string, exactly as the empty source does, for any
downstream stages; the function is total, so no exception is raised. -/
theorem claim10_nonstring_input (parse sanitize : String → String) :
    renderMarkdownWith parse sanitize none = "" ∧
    renderMarkdownWith parse sanitize none =
      renderMarkdownWith parse sanitize (some "") := by
  constructor <;> rfl

/-- C7 counterexample: the tag `constructor` is absent from the alias
table, yet the resolver does not map it to itself — the JS member read
finds the property inherited from `Object.prototype` and returns that
inherited member instead. -/
theorem claim7_counterexample :
    CODE_LANGUAGE_ALIASES.lookup "constructor" = none ∧
    normalizeLanguage (some "constructor") =
      LangResult.inherited "constructor" ∧
    LangResult.inherited "constructor" ≠ LangResult.str "constructor" := by
  decide

/-- C7 (amended): the language resolver sends whitespace-only input to
`plaintext`; sends `TS` and `tsx` (and `TS` with trailing modifiers) to
`typescript`; and sends an ASCII tag whose first token is neither in the
alias table nor the name of a property inherited from `Object.prototype`
to itself, lowercased.  First tokens naming inherited properties (such as
`constructor` and `__proto__`) instead yield the inherited member. -/
theorem claim7_normalizeLanguage :
    (∀ s : String, (∀ c ∈ s.data, isJsWs c = true) →
      normalizeLanguage (some s) = LangResult.str "plaintext") ∧
    normalizeLanguage (some "TS") = LangResult.str "typescript" ∧
    normalizeLanguage (some "tsx") = LangResult.str "typescript" ∧
    normalizeLanguage (some "TS strict") = LangResult.str "typescript" ∧
    (∀ s : String, (∀ c ∈ s.data, c.toNat < 128) →
      jsToLower (jsTrim s) ≠ "" →
      CODE_LANGUAGE_ALIASES.lookup
          ((jsWords (jsToLower (jsTrim s))).headD (jsToLower (jsTrim s))) = none →
      OBJECT_PROTOTYPE_KEYS.contains
          ((jsWords (jsToLower (jsTrim s))).headD (jsToLower (jsTrim s))) = false →
      normalizeLanguage (some s) =
        LangResult.str
          ((jsWords (jsToLower (jsTrim s))).headD (jsToLower (jsTrim s)))) := by
  refine ⟨?_, by decide, by decide, by decide, ?_⟩
  · intro s h
    have h1 : s.data.dropWhile isJsWs = [] := List.dropWhile_eq_nil_iff.mpr h
    have ht : jsTrim s = "" := by
      unfold jsTrim jsTrimChars
      rw [h1]
      rfl
    unfold normalizeLanguage
    simp only [Option.getD_some]
    rw [ht]
    rfl
  · intro s _ hne hlook hproto
    unfold normalizeLanguage
    simp only [Option.getD_some, hlook]
    rw [if_neg hne]
    rw [if_neg (by rw [hproto]; exact fun hc => Bool.noConfusion hc)]

/-- Witness for C7 at the spec's concrete inputs, plus an ordinary
unknown tag passing through unchanged. -/
theorem claim7_witness :
    normalizeLanguage (some "") = LangResult.str "plaintext" ∧
    normalizeLanguage (some "   ") = LangResult.str "plaintext" ∧
    normalizeLanguage (some "ruby") = LangResult.str "ruby" := by
  have h3 := claim7_normalizeLanguage.2.2.2.2 "ruby" (by decide) (by decide)
    (by decide) (by decide)
  have he : (jsWords (jsToLower (jsTrim "ruby"))).headD (jsToLower (jsTrim "ruby"))
      = "ruby" := by decide
  exact ⟨claim7_normalizeLanguage.1 "" (by decide),
    claim7_normalizeLanguage.1 "   " (by decide), by rw [h3, he]⟩

/-- C8: the highlighter adapter returns `none` exactly when the source is
empty, the canonical language is `plaintext`, the language has no
registered grammar, or the underlying highlighter throws (modelled by
`Except.error`); in the last case the failure is caught and `none` is
returned, so the adapter is total and never aborts rendering. -/
theorem claim8_highlight_none_iff (hl : String → String → Except Unit String)
    (source language : String) :
    getHighlightedCode hl source language = none ↔
      source = "" ∨ language = "plaintext" ∨
        registeredLanguages.contains language = false ∨
        hl source language = Except.error () := by
  unfold getHighlightedCode
  by_cases hs : source.isEmpty
  · rw [if_pos hs]
    exact ⟨fun _ => Or.inl ((String.isEmpty_iff _).mp hs), fun _ => rfl⟩
  · rw [if_neg hs]
    have hs' : source ≠ "" := fun h => hs ((String.isEmpty_iff _).mpr h)
    by_cases h2 : (language.isEmpty || language == "plaintext") = true
    · rw [if_pos h2]
      refine ⟨fun _ => ?_, fun _ => rfl⟩
      cases Bool.or_eq_true_iff.mp h2 with
      | inl he =>
        have h0 : language = "" := (String.isEmpty_iff _).mp he
        subst h0
        exact Or.inr (Or.inr (Or.inl (by decide)))
      | inr hp => exact Or.inr (Or.inl (eq_of_beq hp))
    · rw [if_neg h2]
      simp only [Bool.or_eq_true_iff, not_or] at h2
      obtain ⟨hle, hpb⟩ := h2
      have hpne : language ≠ "plaintext" := fun h => hpb (by rw [h]; rfl)
      by_cases hr : registeredLanguages.contains language = true
      · rw [if_neg (by rw [hr]; exact fun h => Bool.noConfusion h)]
        cases hhl : hl source language with
        | ok v =>
          refine ⟨fun h => Option.noConfusion h, fun h => ?_⟩
          rcases h with h | h | h | h
          · exact absurd h hs'
          · exact absurd h hpne
          · rw [hr] at h; exact Bool.noConfusion h
          · exact Except.noConfusion h
        | error e =>
          cases e
          exact ⟨fun _ => Or.inr (Or.inr (Or.inr rfl)), fun _ => rfl⟩
      · rw [if_pos (by rw [Bool.eq_false_iff.mpr hr]; rfl)]
        exact ⟨fun _ => Or.inr (Or.inr (Or.inl (Bool.eq_false_iff.mpr hr))),
          fun _ => rfl⟩

/-- Witness for C8: an unregistered language yields `none` even for a
highlighter that succeeds. -/
theorem claim8_witness :
    getHighlightedCode (fun _ _ => Except.ok "HL") "code" "ruby" = none :=
  (claim8_highlight_none_iff (fun _ _ => Except.ok "HL") "code" "ruby").mpr
    (Or.inr (Or.inr (Or.inl (by decide))))

/-- C9 counterexample: the image renderer does not trim the `alt` and
`title` token values (only `src` is trimmed), so on a token whose text is
`" x "` its output differs from the claim's all-trimmed rendering. -/
theorem claim9_counterexample :
    renderImage ⟨some "a.png", some " x ", some " t "⟩ ≠
      claimRenderImage ⟨some "a.png", some " x ", some " t "⟩ := by
  decide

/-- C9 (amended): the image renderer emits an `img` tag whose `src` is the
trimmed, escaped `href`, whose `alt` and optional `title` are the escaped
but untrimmed token values, followed by the fixed attributes
`loading="lazy"`, `decoding="async"`, `referrerpolicy="no-referrer"`,
`fetchpriority="auto"` and the fixed class `markdown-image`. -/
theorem claim9_image_attributes (token : ImageToken) :
    renderImage token =
      "<img " ++ ("src=\"" ++ escapeHtml (jsTrim (token.href.getD "")) ++ "\"")
        ++ " " ++ ("alt=\"" ++ escapeHtml (token.text.getD "") ++ "\"")
        ++ (if token.title.getD "" ≠ "" then
              " " ++ ("title=\"" ++ escapeHtml (token.title.getD "") ++ "\"")
            else "")
        ++ " " ++ "loading=\"lazy\"" ++ " " ++ "decoding=\"async\""
        ++ " " ++ "referrerpolicy=\"no-referrer\"" ++ " " ++ "fetchpriority=\"auto\""
        ++ " " ++ "class=\"markdown-image\"" ++ ">" := by
  unfold renderImage
  by_cases h : token.title.getD "" = ""
  · simp only [h, ne_eq, not_true_eq_false, if_false, ite_false]
    apply str_eq_of_data
    simp [joinSpace, joinSpaceChar, str_data_append, List.append_assoc]
  · simp only [h, ne_eq, not_false_eq_true, if_true, ite_true]
    apply str_eq_of_data
    simp [joinSpace, joinSpaceChar, str_data_append, List.append_assoc]

/-! ### Lemmas about the definition-list tokenizer -/

/-- When the inner loop reports `hasDefinition`, it collected at least one
description. -/
theorem takeDefs_of_true {fuel : Nat} {s : List Char}
    (h : (takeDefs fuel s).2.2 = true) : (takeDefs fuel s).1 ≠ [] := by
  cases fuel with
  | zero => simp [takeDefs] at h
  | succ n =>
    unfold takeDefs at h ⊢
    cases hm : matchDefinition s with
    | none => rw [hm] at h; simp at h
    | some gr =>
      obtain ⟨g, r⟩ := gr
      simp

/-- Every item the outer loop collects has a nonempty description list. -/
theorem defListItems_descriptions : ∀ (fuel : Nat) (s : List Char),
    ∀ item ∈ (defListItems fuel s).1, item.descriptions ≠ [] := by
  intro fuel
  induction fuel with
  | zero => intro s item h; simp [defListItems] at h
  | succ n ih =>
    intro s item h
    unfold defListItems at h
    by_cases he : s.isEmpty
    · rw [if_pos he] at h; simp at h
    · rw [if_neg he] at h
      by_cases hb : startsWithTwoNewlines s
      · rw [if_pos hb] at h; simp at h
      · rw [if_neg hb] at h
        cases hm : matchTerm s with
        | none => rw [hm] at h; simp at h
        | some gr =>
          obtain ⟨g, r⟩ := gr
          rw [hm] at h
          simp only at h
          by_cases hd : (takeDefs (r.length + 1) r).2.2 = false
          · rw [if_pos hd] at h; simp at h
          · rw [if_neg hd] at h
            have hd' : (takeDefs (r.length + 1) r).2.2 = true := by
              cases hq : (takeDefs (r.length + 1) r).2.2
              · exact absurd hq hd
              · rfl
            by_cases hx : (matchTerm
                ((takeDefs (r.length + 1) r).2.1.dropWhile
                  (fun c => c == '\n'))).isSome
            · rw [if_pos hx] at h
              rcases List.mem_cons.mp h with h1 | h2
              · rw [h1]
                exact takeDefs_of_true hd'
              · exact ih _ _ h2
            · rw [if_neg hx] at h
              rcases List.mem_singleton.mp h with h1
              rw [h1]
              exact takeDefs_of_true hd'

/-- A line starting with two newlines cannot be matched as a term line. -/
theorem matchTerm_of_twoNewlines {s : List Char}
    (h : startsWithTwoNewlines s = true) : matchTerm s = none := by
  match s with
  | [] => simp [startsWithTwoNewlines] at h
  | [c] => simp [startsWithTwoNewlines] at h
  | c1 :: c2 :: rest =>
    simp only [startsWithTwoNewlines, Bool.and_eq_true, beq_iff_eq] at h
    obtain ⟨h1, h2⟩ := h
    subst h1
    rfl

/-- A term line is only matched on nonempty input. -/
theorem matchTerm_ne_nil {s : List Char} {gr : List Char × List Char}
    (h : matchTerm s = some gr) : s.isEmpty = false := by
  cases s with
  | nil => exact absurd h (by simp [matchTerm])
  | cons c cs => rfl

/-! ### Claim theorems: definition-list tokenizer and renderer -/

/-- C5: every token the definition-list tokenizer emits has at least one
description in every entry; and when the candidate term line at the start
position is followed by no colon-prefixed definition line, the tokenizer
backtracks and declares no match there. -/
theorem claim5_defList_invariant :
    (∀ (src : String) (tok : DefListToken), defListTokenizer src = some tok →
      ∀ item ∈ tok.items, item.descriptions ≠ []) ∧
    (∀ (src : String) (g r : List Char), matchTerm src.data = some (g, r) →
      matchDefinition r = none → defListTokenizer src = none) := by
  constructor
  · intro src tok htok item hitem
    unfold defListTokenizer at htok
    by_cases hres : (defListItems (src.data.length + 1) src.data).1.isEmpty
    · rw [if_pos hres] at htok
      exact Option.noConfusion htok
    · rw [if_neg hres] at htok
      have : tok.items = (defListItems (src.data.length + 1) src.data).1 := by
        cases Option.some.inj htok
        rfl
      rw [this] at hitem
      exact defListItems_descriptions _ _ item hitem
  · intro src g r hterm hdef
    have hne : src.data.isEmpty = false := matchTerm_ne_nil hterm
    have hb : startsWithTwoNewlines src.data = false := by
      cases hq : startsWithTwoNewlines src.data
      · rfl
      · rw [matchTerm_of_twoNewlines hq] at hterm
        exact Option.noConfusion hterm
    have htd : takeDefs (r.length + 1) r = ([], r, false) := by
      unfold takeDefs
      rw [hdef]
    have hitems : defListItems (src.data.length + 1) src.data = ([], 0) := by
      unfold defListItems
      rw [if_neg (by rw [hne]; exact fun hc => Bool.noConfusion hc)]
      rw [if_neg (by rw [hb]; exact fun hc => Bool.noConfusion hc)]
      rw [hterm]
      simp [htd]
    unfold defListTokenizer
    rw [hitems]
    rfl

/-- Witness for C5: the spec's backtracking input produces no token, and a
concretely emitted entry has a nonempty description list. -/
theorem claim5_witness :
    defListTokenizer "Term\nNot a definition" = none ∧
    (⟨"Term", ["First def", "Second def"]⟩ : DefListItem).descriptions ≠ [] := by
  constructor
  · exact claim5_defList_invariant.2 "Term\nNot a definition"
      "Term".data "Not a definition".data (by decide) (by decide)
  · exact claim5_defList_invariant.1 "Term\n: First def\n: Second def"
      ⟨"Term\n: First def\n: Second def", [⟨"Term", ["First def", "Second def"]⟩]⟩
      (by decide) _ (by decide)

/-- C6: the input `"Term\n: First def\n: Second def"` tokenizes to a single
definition-list token with one entry (term `Term`, two descriptions in
source order), and its rendering is one `dl` containing one `dt` followed
by exactly two `dd` in source order, each body inline-rendered. -/
theorem claim6_defList_roundtrip (parseInline : String → String) :
    defListTokenizer "Term\n: First def\n: Second def" =
      some ⟨"Term\n: First def\n: Second def",
        [⟨"Term", ["First def", "Second def"]⟩]⟩ ∧
    renderDefinitionList parseInline
        ⟨"Term\n: First def\n: Second def",
          [⟨"Term", ["First def", "Second def"]⟩]⟩ =
      "<dl>" ++ ("<dt>" ++ parseInline "Term" ++ "</dt>")
        ++ ("<dd>" ++ parseInline "First def" ++ "</dd>")
        ++ ("<dd>" ++ parseInline "Second def" ++ "</dd>") ++ "</dl>" := by
  constructor
  · decide
  · apply str_eq_of_data
    simp [renderDefinitionList, String.join, str_data_append, List.append_assoc]

/-! ### Lemmas about word splitting, joining, and the Set model -/

/-- Splitting walks through a whitespace-free block by accumulating it. -/
theorem wordsAux_append_word (w : List Char) (hw : ∀ c ∈ w, isJsWs c = false) :
    ∀ (r acc : List Char), wordsAux acc (w ++ r) = wordsAux (w.reverse ++ acc) r := by
  induction w with
  | nil => intro r acc; simp
  | cons c cs ih =>
    intro r acc
    have hc : isJsWs c = false := hw c (List.mem_cons_self c cs)
    simp only [List.cons_append, wordsAux, hc, Bool.false_eq_true, if_false,
      List.append_eq]
    rw [ih (fun d hd => hw d (List.mem_cons_of_mem c hd)) r (c :: acc)]
    simp [List.append_assoc]

/-- Splitting inverts joining on lists of nonempty whitespace-free words. -/
theorem wordsAux_join (ws : List (List Char))
    (h : ∀ w ∈ ws, w ≠ [] ∧ ∀ c ∈ w, isJsWs c = false) :
    wordsAux [] (joinSpaceChar ws) = ws := by
  induction ws with
  | nil => rfl
  | cons w ws ih =>
    obtain ⟨hne, hnw⟩ := h w (List.mem_cons_self w ws)
    have hrev : w.reverse.isEmpty = false := by
      cases hq : w.reverse with
      | nil => exact absurd (List.reverse_eq_nil_iff.mp hq) hne
      | cons x xs => rfl
    cases ws with
    | nil =>
      show wordsAux [] w = [w]
      have hstep := wordsAux_append_word w hnw [] []
      rw [List.append_nil] at hstep
      rw [hstep]
      simp [wordsAux, hrev]
    | cons w2 ws2 =>
      show wordsAux [] (w ++ ' ' :: joinSpaceChar (w2 :: ws2)) = w :: w2 :: ws2
      rw [wordsAux_append_word w hnw]
      simp only [List.append_nil, wordsAux]
      rw [if_pos (show isJsWs ' ' = true from rfl),
        if_neg (show ¬ w.reverse.isEmpty = true from by
          rw [hrev]; exact fun hc => Bool.noConfusion hc)]
      rw [ih (fun x hx => h x (List.mem_cons_of_mem w hx))]
      simp

/-- Every word produced by splitting is nonempty and whitespace-free. -/
theorem wordsAux_good : ∀ (l acc : List Char), (∀ c ∈ acc, isJsWs c = false) →
    ∀ w ∈ wordsAux acc l, w ≠ [] ∧ ∀ c ∈ w, isJsWs c = false := by
  intro l
  induction l with
  | nil =>
    intro acc hacc w hw
    unfold wordsAux at hw
    by_cases he : acc.isEmpty
    · rw [if_pos he] at hw; simp at hw
    · rw [if_neg he] at hw
      rcases List.mem_singleton.mp hw with rfl
      refine ⟨fun hnil => he ?_, fun c hc => hacc c (List.mem_reverse.mp hc)⟩
      rw [List.reverse_eq_nil_iff.mp hnil]
      rfl
  | cons c cs ih =>
    intro acc hacc w hw
    unfold wordsAux at hw
    by_cases hc : isJsWs c
    · rw [if_pos hc] at hw
      by_cases he : acc.isEmpty
      · rw [if_pos he] at hw
        exact ih [] (by simp) w hw
      · rw [if_neg he] at hw
        rcases List.mem_cons.mp hw with rfl | h2
        · refine ⟨fun hnil => he ?_, fun d hd => hacc d (List.mem_reverse.mp hd)⟩
          rw [List.reverse_eq_nil_iff.mp hnil]
          rfl
        · exact ih [] (by simp) w h2
    · rw [if_neg hc] at hw
      refine ih (c :: acc) ?_ w hw
      intro d hd
      rcases List.mem_cons.mp hd with rfl | h2
      · exact Bool.eq_false_iff.mpr hc
      · exact hacc d h2

/-- String-level: splitting inverts joining on good token lists. -/
theorem jsWords_joinSpace (l : List String)
    (h : ∀ x ∈ l, x ≠ "" ∧ ∀ c ∈ x.data, isJsWs c = false) :
    jsWords (joinSpace l) = l := by
  unfold jsWords joinSpace wordsChar
  rw [str_mk_data]
  rw [wordsAux_join (l.map String.data) ?_]
  · rw [List.map_map]
    have hid : ∀ x ∈ l, String.mk (String.data x) = x := fun x _ => rfl
    calc l.map (fun x => String.mk (String.data x)) = l.map id :=
          List.map_congr_left (fun x hx => hid x hx)
      _ = l := List.map_id l
  · intro w hw
    obtain ⟨x, hx, rfl⟩ := List.mem_map.mp hw
    obtain ⟨h1, h2⟩ := h x hx
    exact ⟨fun hnil => h1 (str_eq_of_data (by rw [hnil])), h2⟩

/-- Every token of a split string is nonempty and whitespace-free. -/
theorem jsWords_good (s : String) :
    ∀ w ∈ jsWords s, w ≠ "" ∧ ∀ c ∈ w.data, isJsWs c = false := by
  intro w hw
  unfold jsWords wordsChar at hw
  obtain ⟨wc, hwc, rfl⟩ := List.mem_map.mp hw
  obtain ⟨h1, h2⟩ := wordsAux_good s.data [] (by simp) wc hwc
  exact ⟨fun he => h1 (congrArg String.data he), h2⟩

/-- Membership after a Set insertion. -/
theorem mem_insertNew {l : List String} {x y : String} :
    y ∈ insertNew l x ↔ y ∈ l ∨ y = x := by
  unfold insertNew
  by_cases h : x ∈ l
  · rw [if_pos h]
    exact ⟨Or.inl, fun hy => hy.elim id (fun hyx => hyx ▸ h)⟩
  · rw [if_neg h]
    simp

/-- Set insertion keeps the element list duplicate-free. -/
theorem insertNew_nodup {l : List String} {x : String} (h : l.Nodup) :
    (insertNew l x).Nodup := by
  unfold insertNew
  by_cases hm : x ∈ l
  · rw [if_pos hm]; exact h
  · rw [if_neg hm]
    rw [List.nodup_append]
    exact ⟨h, List.nodup_singleton x,
      fun a ha hax => hm ((List.mem_singleton.mp hax) ▸ ha)⟩

/-- The inserted element is a member. -/
theorem insertNew_mem_self {l : List String} {x : String} : x ∈ insertNew l x :=
  mem_insertNew.mpr (Or.inr rfl)

/-- Inserting a present element changes nothing. -/
theorem insertNew_of_mem {l : List String} {x : String} (h : x ∈ l) :
    insertNew l x = l := if_pos h

/-- Membership in the Set built from a list. -/
theorem foldl_insertNew_mem : ∀ (l acc : List String) (y : String),
    y ∈ l.foldl insertNew acc ↔ y ∈ acc ∨ y ∈ l := by
  intro l
  induction l with
  | nil => simp
  | cons a as ih =>
    intro acc y
    simp only [List.foldl_cons]
    rw [ih, mem_insertNew]
    simp only [List.mem_cons]
    tauto

/-- The Set built from a list is duplicate-free. -/
theorem foldl_insertNew_nodup : ∀ (l acc : List String), acc.Nodup →
    (l.foldl insertNew acc).Nodup := by
  intro l
  induction l with
  | nil => intro acc h; exact h
  | cons a as ih =>
    intro acc h
    simp only [List.foldl_cons]
    exact ih _ (insertNew_nodup h)

/-- Membership in `setOfList`. -/
theorem setOfList_mem {l : List String} {y : String} :
    y ∈ setOfList l ↔ y ∈ l := by
  unfold setOfList
  rw [foldl_insertNew_mem]
  simp

/-- `setOfList` is duplicate-free. -/
theorem setOfList_nodup (l : List String) : (setOfList l).Nodup :=
  foldl_insertNew_nodup l [] List.nodup_nil

/-- Building a Set from fresh duplicate-free input appends it. -/
theorem foldl_insertNew_of_nodup : ∀ (l acc : List String), l.Nodup →
    (∀ x ∈ l, x ∉ acc) → l.foldl insertNew acc = acc ++ l := by
  intro l
  induction l with
  | nil => intro acc _ _; simp
  | cons a as ih =>
    intro acc hnd hdisj
    simp only [List.foldl_cons]
    have ha : a ∉ acc := hdisj a (List.mem_cons_self a as)
    rw [show insertNew acc a = acc ++ [a] from if_neg ha]
    have hside : ∀ x ∈ as, x ∉ acc ++ [a] := by
      intro x hx hmem
      rcases List.mem_append.mp hmem with h1 | h1
      · exact hdisj x (List.mem_cons_of_mem a hx) h1
      · exact (List.nodup_cons.mp hnd).1 (List.mem_singleton.mp h1 ▸ hx)
    rw [ih (acc ++ [a]) (List.nodup_cons.mp hnd).2 hside]
    simp

/-- A duplicate-free list is its own Set. -/
theorem setOfList_eq_self {l : List String} (h : l.Nodup) : setOfList l = l := by
  unfold setOfList
  rw [foldl_insertNew_of_nodup l [] h (by simp)]
  simp

/-! ### Lemmas about attribute lists -/

/-- Key search on a cons cell whose head matches. -/
theorem find_attr_cons_pos {k : String} {p : String × String}
    {ps : List (String × String)} (h : (p.1 == k) = true) :
    List.find? (fun q => q.1 == k) (p :: ps) = some p := by
  rw [List.find?_cons]
  simp [h]

/-- Key search on a cons cell whose head does not match. -/
theorem find_attr_cons_neg {k : String} {p : String × String}
    {ps : List (String × String)} (h : (p.1 == k) = false) :
    List.find? (fun q => q.1 == k) (p :: ps) =
      List.find? (fun q => q.1 == k) ps := by
  rw [List.find?_cons]
  simp [h]

/-- A successful attribute lookup yields a member of the list. -/
theorem lookupAttr_mem {l : List (String × String)} {k v : String}
    (h : lookupAttr l k = some v) : (k, v) ∈ l := by
  unfold lookupAttr at h
  cases hf : l.find? (fun p => p.1 == k) with
  | none => rw [hf] at h; exact Option.noConfusion h
  | some p =>
    rw [hf] at h
    have hp := List.find?_some hf
    have hm := List.mem_of_find?_eq_some hf
    obtain ⟨p1, p2⟩ := p
    have hv : p2 = v := by simpa using h
    have hk : p1 = k := by simpa using hp
    rw [← hv, ← hk]
    exact hm

/-- With duplicate-free keys, membership determines lookup. -/
theorem mem_lookupAttr : ∀ {l : List (String × String)} {k v : String},
    (l.map Prod.fst).Nodup → (k, v) ∈ l → lookupAttr l k = some v := by
  intro l
  induction l with
  | nil => intro k v _ h; simp at h
  | cons p ps ih =>
    intro k v hn h
    obtain ⟨p1, p2⟩ := p
    rw [List.map_cons, List.nodup_cons] at hn
    rcases List.mem_cons.mp h with heq | hmem
    · obtain ⟨rfl, rfl⟩ := Prod.mk.injEq k v p1 p2 |>.mp heq
      unfold lookupAttr
      rw [find_attr_cons_pos (by simp)]
      rfl
    · have hk : (p1 == k) = false := by
        rw [Bool.eq_false_iff]
        intro he
        apply hn.1
        have hmk : k ∈ ps.map Prod.fst := by
          simpa using List.mem_map_of_mem Prod.fst hmem
        simpa [eq_of_beq he] using hmk
      unfold lookupAttr
      rw [find_attr_cons_neg hk]
      exact ih hn.2 hmem

/-- With duplicate-free keys, two bindings of the same key agree. -/
theorem keys_unique : ∀ {l : List (String × String)},
    (l.map Prod.fst).Nodup → ∀ {k a b : String},
    (k, a) ∈ l → (k, b) ∈ l → a = b := by
  intro l
  induction l with
  | nil => intro _ k a b ha _; simp at ha
  | cons p ps ih =>
    intro hn k a b ha hb
    rw [List.map_cons, List.nodup_cons] at hn
    rcases List.mem_cons.mp ha with hea | hma
    · rcases List.mem_cons.mp hb with heb | hmb
      · rw [← hea] at heb
        exact (Prod.mk.injEq .. |>.mp heb).2.symm
      · exfalso
        apply hn.1
        rw [show p.1 = k from (congrArg Prod.fst hea).symm]
        exact List.mem_map_of_mem Prod.fst hmb
    · rcases List.mem_cons.mp hb with heb | hmb
      · exfalso
        apply hn.1
        rw [show p.1 = k from (congrArg Prod.fst heb).symm]
        exact List.mem_map_of_mem Prod.fst hma
      · exact ih hn.2 hma hmb

/-- Keys after a JS object write: unchanged when the key is present,
appended when it is new. -/
theorem setAttr_map_fst (k v : String) (l : List (String × String)) :
    (setAttr k v l).map Prod.fst =
      if l.any (fun p => p.1 == k) then l.map Prod.fst
      else l.map Prod.fst ++ [k] := by
  unfold setAttr
  by_cases h : l.any (fun p => p.1 == k)
  · rw [if_pos h, if_pos h, List.map_map]
    refine List.map_congr_left ?_
    intro p _
    by_cases hpk : (p.1 == k) = true
    · simp only [Function.comp_apply, if_pos hpk]
      exact (eq_of_beq hpk).symm
    · simp only [Function.comp_apply, if_neg hpk]
  · rw [if_neg h, if_neg h]
    simp

/-- A JS object write keeps keys duplicate-free. -/
theorem setAttr_keysNodup {l : List (String × String)} {k v : String}
    (h : (l.map Prod.fst).Nodup) : ((setAttr k v l).map Prod.fst).Nodup := by
  rw [setAttr_map_fst]
  by_cases ha : l.any (fun p => p.1 == k)
  · rw [if_pos ha]; exact h
  · rw [if_neg ha]
    rw [List.nodup_append]
    refine ⟨h, List.nodup_singleton k, ?_⟩
    intro x hx hxk
    rcases List.mem_map.mp hx with ⟨p, hp, rfl⟩
    exact ha (List.any_eq_true.mpr ⟨p, hp,
      beq_iff_eq .. |>.mpr (List.mem_singleton.mp hxk)⟩)

/-- Finding by key in the rewritten list, when the key was present. -/
theorem lookupAttr_map_set (k v : String) :
    ∀ l : List (String × String), l.any (fun p => p.1 == k) = true →
    lookupAttr (l.map (fun p => if p.1 == k then (k, v) else p)) k = some v := by
  intro l
  induction l with
  | nil => intro h; simp at h
  | cons p ps ih =>
    intro h
    rw [List.map_cons]
    by_cases hpk : (p.1 == k) = true
    · rw [if_pos hpk]
      unfold lookupAttr
      rw [find_attr_cons_pos (by simp)]
      rfl
    · rw [if_neg hpk]
      have h2 : ps.any (fun p => p.1 == k) = true := by
        rcases List.any_eq_true.mp h with ⟨q, hq, hqk⟩
        rcases List.mem_cons.mp hq with rfl | hq2
        · exact absurd hqk hpk
        · exact List.any_eq_true.mpr ⟨q, hq2, hqk⟩
      unfold lookupAttr
      rw [find_attr_cons_neg (Bool.eq_false_iff.mpr hpk)]
      exact ih h2

/-- Reading back the key just written. -/
theorem lookupAttr_setAttr_self (l : List (String × String)) (k v : String) :
    lookupAttr (setAttr k v l) k = some v := by
  unfold setAttr
  by_cases h : l.any (fun p => p.1 == k)
  · rw [if_pos h]
    exact lookupAttr_map_set k v l h
  · rw [if_neg h]
    unfold lookupAttr
    have hnone : l.find? (fun p => p.1 == k) = none := by
      rw [List.find?_eq_none]
      intro p hp hpk
      exact h (List.any_eq_true.mpr ⟨p, hp, hpk⟩)
    rw [List.find?_append, hnone]
    rw [find_attr_cons_pos (by simp)]
    rfl

/-- Rewriting one key's bindings leaves other keys' searches unchanged. -/
theorem find_map_set_other {k2 k : String} (hne : k2 ≠ k) (v : String) :
    ∀ l : List (String × String),
    (l.map (fun p => if p.1 == k then (k, v) else p)).find?
        (fun p => p.1 == k2) = l.find? (fun p => p.1 == k2) := by
  intro l
  induction l with
  | nil => rfl
  | cons p ps ih =>
    rw [List.map_cons]
    by_cases hpk : (p.1 == k) = true
    · rw [if_pos hpk]
      have hp2 : ((k, v).1 == k2) = false := by
        simp only [Bool.eq_false_iff]
        simpa using fun he => hne he.symm
      have hp2' : (p.1 == k2) = false := by
        rw [eq_of_beq hpk]
        simp only [Bool.eq_false_iff]
        simpa using fun he => hne he.symm
      rw [find_attr_cons_neg hp2, find_attr_cons_neg hp2']
      exact ih
    · rw [if_neg hpk]
      by_cases hq : (p.1 == k2) = true
      · rw [find_attr_cons_pos hq, find_attr_cons_pos hq]
      · rw [find_attr_cons_neg (Bool.eq_false_iff.mpr hq),
          find_attr_cons_neg (Bool.eq_false_iff.mpr hq)]
        exact ih

/-- Writing one key does not change another key's lookup. -/
theorem lookupAttr_setAttr_other {k2 k : String} (hne : k2 ≠ k)
    (l : List (String × String)) (v : String) :
    lookupAttr (setAttr k v l) k2 = lookupAttr l k2 := by
  unfold setAttr
  by_cases h : l.any (fun p => p.1 == k)
  · rw [if_pos h]
    unfold lookupAttr
    rw [find_map_set_other hne]
  · rw [if_neg h]
    unfold lookupAttr
    rw [List.find?_append]
    cases hf : l.find? (fun p => p.1 == k2) with
    | some p => simp
    | none =>
      rw [find_attr_cons_neg (by
        simp only [Bool.eq_false_iff]
        simpa using fun he => hne he.symm)]
      simp

/-- Writing one key preserves membership of pairs with other keys. -/
theorem mem_setAttr_other {k2 v2 k v : String} (hne : k2 ≠ k)
    (l : List (String × String)) :
    (k2, v2) ∈ setAttr k v l ↔ (k2, v2) ∈ l := by
  unfold setAttr
  by_cases h : l.any (fun p => p.1 == k)
  · rw [if_pos h]
    constructor
    · intro hm
      rcases List.mem_map.mp hm with ⟨p, hp, hfp⟩
      by_cases hpk : (p.1 == k) = true
      · rw [if_pos hpk] at hfp
        exact absurd (congrArg Prod.fst hfp.symm) hne
      · rw [if_neg hpk] at hfp
        rw [← hfp]
        exact hp
    · intro hm
      refine List.mem_map.mpr ⟨(k2, v2), hm, ?_⟩
      rw [if_neg (by simpa using hne)]
  · rw [if_neg h]
    rw [List.mem_append, List.mem_singleton]
    constructor
    · rintro (hm | he)
      · exact hm
      · exact absurd (congrArg Prod.fst he) hne
    · exact Or.inl

/-- Writing a key the value it already holds is the identity (with
duplicate-free keys). -/
theorem setAttr_eq_self {l : List (String × String)} {k v : String}
    (hn : (l.map Prod.fst).Nodup) (h : lookupAttr l k = some v) :
    setAttr k v l = l := by
  have hmem : (k, v) ∈ l := lookupAttr_mem h
  unfold setAttr
  rw [if_pos (List.any_eq_true.mpr ⟨(k, v), hmem, by simp⟩)]
  have hcongr : ∀ p ∈ l, (if p.1 == k then (k, v) else p) = p := by
    intro p hp
    by_cases hpk : (p.1 == k) = true
    · rw [if_pos hpk]
      obtain ⟨p1, p2⟩ := p
      have h1 : p1 = k := by simpa using hpk
      subst h1
      rw [keys_unique hn hmem hp]
    · rw [if_neg hpk]
  calc l.map (fun p => if p.1 == k then (k, v) else p) = l.map id :=
        List.map_congr_left hcongr
    _ = l := List.map_id l

/-! ### Lemmas about attribute de-duplication and filtering -/

/-- The de-duplicated attribute list has duplicate-free keys, none of them
previously seen. -/
theorem dedupAttribsAux_spec : ∀ (l : List (String × String))
    (seen : List String),
    ((dedupAttribsAux seen l).map Prod.fst).Nodup ∧
      ∀ k ∈ (dedupAttribsAux seen l).map Prod.fst, k ∉ seen := by
  intro l
  induction l with
  | nil => intro seen; exact ⟨List.nodup_nil, by simp [dedupAttribsAux]⟩
  | cons p ps ih =>
    intro seen
    obtain ⟨p1, p2⟩ := p
    unfold dedupAttribsAux
    by_cases h : seen.contains p1 = true
    · rw [if_pos h]
      exact ih seen
    · rw [if_neg h]
      obtain ⟨ihn, ihs⟩ := ih (p1 :: seen)
      constructor
      · rw [List.map_cons, List.nodup_cons]
        exact ⟨fun hmem => (ihs p1 hmem) (List.mem_cons_self p1 seen), ihn⟩
      · intro k hk
        rw [List.map_cons] at hk
        rcases List.mem_cons.mp hk with rfl | h2
        · exact fun hks => h (List.elem_iff.mpr hks)
        · exact fun hks => (ihs k h2) (List.mem_cons_of_mem _ hks)

/-- Re-parsing yields duplicate-free attribute keys. -/
theorem dedupAttribs_keysNodup (l : List (String × String)) :
    ((dedupAttribs l).map Prod.fst).Nodup :=
  (dedupAttribsAux_spec l []).1

/-- De-duplication is the identity on lists with duplicate-free keys. -/
theorem dedupAttribsAux_eq_self : ∀ (l : List (String × String))
    (seen : List String), (l.map Prod.fst).Nodup →
    (∀ k ∈ l.map Prod.fst, k ∉ seen) → dedupAttribsAux seen l = l := by
  intro l
  induction l with
  | nil => intro seen _ _; rfl
  | cons p ps ih =>
    intro seen hn hs
    obtain ⟨p1, p2⟩ := p
    rw [List.map_cons, List.nodup_cons] at hn
    unfold dedupAttribsAux
    rw [if_neg (fun hc =>
      hs p1 (List.map_cons .. ▸ List.mem_cons_self ..) (List.elem_iff.mp hc))]
    rw [ih (p1 :: seen) hn.2 ?_]
    intro k hk hks
    rcases List.mem_cons.mp hks with rfl | h2
    · exact hn.1 hk
    · exact hs k (List.map_cons .. ▸ List.mem_cons_of_mem _ hk) h2

/-- Re-parsing already-normalized attributes changes nothing. -/
theorem dedupAttribs_eq_self {l : List (String × String)}
    (h : (l.map Prod.fst).Nodup) : dedupAttribs l = l :=
  dedupAttribsAux_eq_self l [] h (by simp)

/-- Filtering preserves duplicate-free keys. -/
theorem filter_keysNodup (p : String × String → Bool)
    {l : List (String × String)} (h : (l.map Prod.fst).Nodup) :
    ((l.filter p).map Prod.fst).Nodup :=
  h.sublist ((List.filter_sublist l).map Prod.fst)

/-- Filtering twice by the same predicate filters once. -/
theorem filter_idem {α : Type} (p : α → Bool) (l : List α) :
    (l.filter p).filter p = l.filter p := by
  induction l with
  | nil => rfl
  | cons a as ih =>
    by_cases h : p a
    · rw [List.filter_cons_of_pos h, List.filter_cons_of_pos h, ih]
    · rw [List.filter_cons_of_neg h, ih]

/-! ### Lemmas about the anchor transform and URL schemes -/

/-- The anchor transform keeps attribute keys duplicate-free. -/
theorem transformA_keysNodup {a : List (String × String)}
    (h : (a.map Prod.fst).Nodup) : ((transformA a).map Prod.fst).Nodup := by
  unfold transformA
  by_cases hext : isExternalHref ((lookupAttr a "href").getD "") = true
  · rw [if_pos hext]
    by_cases ht : jsFalsy (lookupAttr (setAttr "rel"
        (joinSpace (insertNew (insertNew
          (setOfList (jsWords ((lookupAttr a "rel").getD "")))
          "noopener") "noreferrer")) a) "target") = true
    · rw [if_pos ht]
      exact setAttr_keysNodup (setAttr_keysNodup h)
    · rw [if_neg ht]
      exact setAttr_keysNodup h
  · rw [if_neg hext]
    exact h

/-- On a non-external anchor the transform is the identity. -/
theorem transformA_not_external {a : List (String × String)}
    (h : isExternalHref ((lookupAttr a "href").getD "") = false) :
    transformA a = a := by
  unfold transformA
  rw [if_neg (by rw [h]; exact fun hc => Bool.noConfusion hc)]

/-- On an external anchor the transform writes the merged, de-duplicated
`rel` value. -/
theorem transformA_rel {a : List (String × String)}
    (hext : isExternalHref ((lookupAttr a "href").getD "") = true) :
    lookupAttr (transformA a) "rel" =
      some (joinSpace (insertNew (insertNew
        (setOfList (jsWords ((lookupAttr a "rel").getD "")))
        "noopener") "noreferrer")) := by
  unfold transformA
  rw [if_pos hext]
  by_cases ht : jsFalsy (lookupAttr (setAttr "rel"
      (joinSpace (insertNew (insertNew
        (setOfList (jsWords ((lookupAttr a "rel").getD "")))
        "noopener") "noreferrer")) a) "target") = true
  · rw [if_pos ht]
    rw [lookupAttr_setAttr_other (by decide)]
    exact lookupAttr_setAttr_self ..
  · rw [if_neg ht]
    exact lookupAttr_setAttr_self ..

/-- On an external anchor with a falsy author `target`, the transform
writes `_blank`. -/
theorem transformA_target_blank {a : List (String × String)}
    (hext : isExternalHref ((lookupAttr a "href").getD "") = true)
    (hfal : jsFalsy (lookupAttr a "target") = true) :
    lookupAttr (transformA a) "target" = some "_blank" := by
  unfold transformA
  rw [if_pos hext]
  rw [if_pos (by rw [lookupAttr_setAttr_other (by decide)]; exact hfal)]
  exact lookupAttr_setAttr_self ..

/-- On an external anchor with a non-falsy author `target`, the transform
leaves `target` unchanged. -/
theorem transformA_target_keep {a : List (String × String)}
    (hext : isExternalHref ((lookupAttr a "href").getD "") = true)
    (hfal : jsFalsy (lookupAttr a "target") = false) :
    lookupAttr (transformA a) "target" = lookupAttr a "target" := by
  unfold transformA
  rw [if_pos hext]
  rw [if_neg (by
    rw [lookupAttr_setAttr_other (by decide), hfal]
    exact fun hc => Bool.noConfusion hc)]
  rw [lookupAttr_setAttr_other (by decide)]

/-- The transform never changes keys other than `rel` and `target`. -/
theorem transformA_mem_other {k v : String} (h1 : k ≠ "rel")
    (h2 : k ≠ "target") (a : List (String × String)) :
    (k, v) ∈ transformA a ↔ (k, v) ∈ a := by
  unfold transformA
  by_cases hext : isExternalHref ((lookupAttr a "href").getD "") = true
  · rw [if_pos hext]
    by_cases ht : jsFalsy (lookupAttr (setAttr "rel"
        (joinSpace (insertNew (insertNew
          (setOfList (jsWords ((lookupAttr a "rel").getD "")))
          "noopener") "noreferrer")) a) "target") = true
    · rw [if_pos ht]
      rw [mem_setAttr_other h2, mem_setAttr_other h1]
    · rw [if_neg ht]
      rw [mem_setAttr_other h1]
  · rw [if_neg hext]

/-- Case analysis for a character matching `h` case-insensitively. -/
theorem char_h {c : Char} (h : (c == 'h' || c == 'H') = true) :
    c.isAlpha = true ∧ c.toLower = 'h' ∧ isSchemeChar c = true := by
  rcases Bool.or_eq_true_iff.mp h with h | h <;> obtain rfl := eq_of_beq h <;>
    exact ⟨by decide, by decide, by decide⟩

/-- Case analysis for a character matching `t` case-insensitively. -/
theorem char_t {c : Char} (h : (c == 't' || c == 'T') = true) :
    c.isAlpha = true ∧ c.toLower = 't' ∧ isSchemeChar c = true := by
  rcases Bool.or_eq_true_iff.mp h with h | h <;> obtain rfl := eq_of_beq h <;>
    exact ⟨by decide, by decide, by decide⟩

/-- Case analysis for a character matching `p` case-insensitively. -/
theorem char_p {c : Char} (h : (c == 'p' || c == 'P') = true) :
    c.isAlpha = true ∧ c.toLower = 'p' ∧ isSchemeChar c = true := by
  rcases Bool.or_eq_true_iff.mp h with h | h <;> obtain rfl := eq_of_beq h <;>
    exact ⟨by decide, by decide, by decide⟩

/-- Case analysis for a character matching `s` case-insensitively. -/
theorem char_s {c : Char} (h : (c == 's' || c == 'S') = true) :
    c.isAlpha = true ∧ c.toLower = 's' ∧ isSchemeChar c = true := by
  rcases Bool.or_eq_true_iff.mp h with h | h <;> obtain rfl := eq_of_beq h <;>
    exact ⟨by decide, by decide, by decide⟩

/-- Dropping scheme characters stops exactly at the colon. -/
theorem dropWhile_scheme (cs t : List Char)
    (h : ∀ c ∈ cs, isSchemeChar c = true) :
    (cs ++ ':' :: t).dropWhile isSchemeChar = ':' :: t := by
  induction cs with
  | nil =>
    show List.dropWhile isSchemeChar (':' :: t) = ':' :: t
    rw [List.dropWhile_cons, if_neg (by decide)]
  | cons c cs ih =>
    rw [List.cons_append, List.dropWhile_cons]
    rw [if_pos (h c (List.mem_cons_self c cs))]
    exact ih (fun d hd => h d (List.mem_cons_of_mem c hd))

/-- Taking scheme characters collects exactly the part before the colon. -/
theorem takeWhile_scheme (cs t : List Char)
    (h : ∀ c ∈ cs, isSchemeChar c = true) :
    (cs ++ ':' :: t).takeWhile isSchemeChar = cs := by
  induction cs with
  | nil =>
    show List.takeWhile isSchemeChar (':' :: t) = []
    rw [List.takeWhile_cons, if_neg (by decide)]
  | cons c cs ih =>
    rw [List.cons_append, List.takeWhile_cons]
    rw [if_pos (h c (List.mem_cons_self c cs))]
    rw [ih (fun d hd => h d (List.mem_cons_of_mem c hd))]

/-- The scheme read from a value of the shape `letter·schemeChars·colon`. -/
theorem urlScheme_build {c0 : Char} {cs t : List Char}
    (h0 : c0.isAlpha = true) (hcs : ∀ c ∈ cs, isSchemeChar c = true) :
    urlScheme (String.mk (c0 :: (cs ++ ':' :: t))) =
      some (String.mk ((c0 :: cs).map Char.toLower)) := by
  unfold urlScheme
  simp only [str_mk_data]
  rw [if_pos h0, dropWhile_scheme cs t hcs, takeWhile_scheme cs t hcs]
  rfl

/-- An external `href` has scheme `http` or `https`. -/
theorem urlScheme_of_external {v : String} (h : isExternalHref v = true) :
    urlScheme v = some "http" ∨ urlScheme v = some "https" := by
  obtain ⟨d⟩ := v
  unfold isExternalHref at h
  simp only [str_mk_data] at h
  rcases d with _ | ⟨c0, _ | ⟨c1, _ | ⟨c2, _ | ⟨c3, rest⟩⟩⟩⟩
  · simp at h
  · simp at h
  · simp at h
  · simp at h
  simp only [Bool.and_eq_true] at h
  obtain ⟨⟨⟨⟨h0, h1⟩, h2⟩, h3⟩, hrest⟩ := h
  obtain ⟨ha0, hl0, hs0⟩ := char_h h0
  obtain ⟨ha1, hl1, hs1⟩ := char_t h1
  obtain ⟨ha2, hl2, hs2⟩ := char_t h2
  obtain ⟨ha3, hl3, hs3⟩ := char_p h3
  rcases Bool.or_eq_true_iff.mp hrest with hA | hB
  · rcases rest with _ | ⟨a, _ | ⟨b, _ | ⟨c, t⟩⟩⟩
    · simp [startsWithColonSlashSlash] at hA
    · simp [startsWithColonSlashSlash] at hA
    · simp [startsWithColonSlashSlash] at hA
    simp only [startsWithColonSlashSlash, Bool.and_eq_true, beq_iff_eq] at hA
    obtain ⟨⟨rfl, rfl⟩, rfl⟩ := hA
    left
    have hcs3 : ∀ c ∈ ([c1, c2, c3] : List Char), isSchemeChar c = true := by
      intro c hc
      simp only [List.mem_cons, List.not_mem_nil, or_false] at hc
      rcases hc with rfl | rfl | rfl
      · exact hs1
      · exact hs2
      · exact hs3
    have hb : urlScheme (String.mk
          (c0 :: ([c1, c2, c3] ++ ':' :: '/' :: '/' :: t))) =
        some (String.mk ((c0 :: [c1, c2, c3]).map Char.toLower)) :=
      urlScheme_build ha0 hcs3
    rw [show ((c0 :: ([c1, c2, c3] ++ ':' :: '/' :: '/' :: t)) : List Char) =
        c0 :: c1 :: c2 :: c3 :: ':' :: '/' :: '/' :: t from rfl] at hb
    rw [hb]
    simp only [List.map_cons, List.map_nil, hl0, hl1, hl2, hl3]
  · rcases rest with _ | ⟨c4, rest2⟩
    · simp at hB
    simp only [Bool.and_eq_true] at hB
    obtain ⟨h4, hB2⟩ := hB
    obtain ⟨ha4, hl4, hs4⟩ := char_s h4
    rcases rest2 with _ | ⟨a, _ | ⟨b, _ | ⟨c, t⟩⟩⟩
    · simp [startsWithColonSlashSlash] at hB2
    · simp [startsWithColonSlashSlash] at hB2
    · simp [startsWithColonSlashSlash] at hB2
    simp only [startsWithColonSlashSlash, Bool.and_eq_true, beq_iff_eq] at hB2
    obtain ⟨⟨rfl, rfl⟩, rfl⟩ := hB2
    right
    have hcs4 : ∀ c ∈ ([c1, c2, c3, c4] : List Char), isSchemeChar c = true := by
      intro c hc
      simp only [List.mem_cons, List.not_mem_nil, or_false] at hc
      rcases hc with rfl | rfl | rfl | rfl
      · exact hs1
      · exact hs2
      · exact hs3
      · exact hs4
    have hb : urlScheme (String.mk
          (c0 :: ([c1, c2, c3, c4] ++ ':' :: '/' :: '/' :: t))) =
        some (String.mk ((c0 :: [c1, c2, c3, c4]).map Char.toLower)) :=
      urlScheme_build ha0 hcs4
    rw [show ((c0 :: ([c1, c2, c3, c4] ++ ':' :: '/' :: '/' :: t)) : List Char) =
        c0 :: c1 :: c2 :: c3 :: c4 :: ':' :: '/' :: '/' :: t from rfl] at hb
    rw [hb]
    simp only [List.map_cons, List.map_nil, hl0, hl1, hl2, hl3, hl4]

/-- The `rel` attribute always survives filtering on an anchor. -/
theorem keepAttr_rel (v : String) : keepAttr "a" "rel" v = true := rfl

/-- The `target` attribute always survives filtering on an anchor. -/
theorem keepAttr_target (v : String) : keepAttr "a" "target" v = true := rfl

/-- An external `href` survives filtering on an anchor. -/
theorem keepAttr_href_external {v : String} (h : isExternalHref v = true) :
    keepAttr "a" "href" v = true := by
  have h1 : (allowedAttributesFor "a").contains "href" = true := by decide
  rcases urlScheme_of_external h with hs | hs <;>
    simp [keepAttr, hs, h1] <;> decide

/-! ### Lemmas about the sanitizer passes -/

/-- The merged `rel` token set holds only nonempty whitespace-free
tokens. -/
theorem relSet_good (rel0 : String) :
    ∀ x ∈ insertNew (insertNew (setOfList (jsWords rel0)) "noopener")
        "noreferrer",
      x ≠ "" ∧ ∀ c ∈ x.data, isJsWs c = false := by
  intro x hx
  rcases mem_insertNew.mp hx with hx | rfl
  · rcases mem_insertNew.mp hx with hx | rfl
    · exact jsWords_good rel0 x (setOfList_mem.mp hx)
    · exact ⟨by decide, by decide⟩
  · exact ⟨by decide, by decide⟩

/-- The merged `rel` token set is duplicate-free. -/
theorem relSet_nodup (rel0 : String) :
    (insertNew (insertNew (setOfList (jsWords rel0)) "noopener")
      "noreferrer").Nodup :=
  insertNew_nodup (insertNew_nodup (setOfList_nodup _))

/-- Re-merging an already-merged `rel` token set changes nothing. -/
theorem relSet_stable (rel0 : String) :
    insertNew (insertNew (setOfList
        (insertNew (insertNew (setOfList (jsWords rel0)) "noopener")
          "noreferrer"))
      "noopener") "noreferrer" =
    insertNew (insertNew (setOfList (jsWords rel0)) "noopener")
      "noreferrer" := by
  have h1 : "noopener" ∈ insertNew (insertNew (setOfList (jsWords rel0))
      "noopener") "noreferrer" :=
    mem_insertNew.mpr (Or.inl insertNew_mem_self)
  have h2 : "noreferrer" ∈ insertNew (insertNew (setOfList (jsWords rel0))
      "noopener") "noreferrer" :=
    insertNew_mem_self
  rw [setOfList_eq_self (relSet_nodup rel0), insertNew_of_mem h1,
    insertNew_of_mem h2]

/-- An attribute list already carrying an external `href`, the merged
`rel`, and a nonempty `target` is a fixed point of the anchor transform. -/
theorem transformA_fixed {B : List (String × String)}
    (hnB : (B.map Prod.fst).Nodup)
    {href0 : String} (hhref : lookupAttr B "href" = some href0)
    (hextv : isExternalHref href0 = true)
    {rel0 : String} (hrel : lookupAttr B "rel" =
      some (joinSpace (insertNew (insertNew (setOfList (jsWords rel0))
        "noopener") "noreferrer")))
    {tv : String} (htv : lookupAttr B "target" = some tv)
    (htvne : tv.isEmpty = false) :
    transformA B = B := by
  have hextB : isExternalHref ((lookupAttr B "href").getD "") = true := by
    rw [hhref]
    simpa using hextv
  have hwords : jsWords ((lookupAttr B "rel").getD "") =
      insertNew (insertNew (setOfList (jsWords rel0)) "noopener")
        "noreferrer" := by
    rw [hrel]
    simp only [Option.getD_some]
    exact jsWords_joinSpace _ (relSet_good _)
  have hsetrel : setAttr "rel" (joinSpace (insertNew (insertNew
      (setOfList (jsWords ((lookupAttr B "rel").getD ""))) "noopener")
      "noreferrer")) B = B := by
    rw [hwords, relSet_stable]
    exact setAttr_eq_self hnB hrel
  simp only [transformA]
  rw [if_pos hextB, hsetrel, htv]
  rw [if_neg (by simp [jsFalsy, htvne])]

/-- Applying the anchor transform to its own filtered output changes
nothing: the second pass of the sanitizer sees an anchor that is already
in its final form. -/
theorem transformA_of_sanitized {a0 : List (String × String)}
    (hn : (a0.map Prod.fst).Nodup) :
    transformA ((transformA a0).filter (fun p => keepAttr "a" p.1 p.2)) =
      (transformA a0).filter (fun p => keepAttr "a" p.1 p.2) := by
  by_cases hext : isExternalHref ((lookupAttr a0 "href").getD "") = true
  · obtain ⟨href0, hv⟩ : ∃ h0, lookupAttr a0 "href" = some h0 := by
      cases hv : lookupAttr a0 "href" with
      | none => rw [hv] at hext; exact absurd hext (by decide)
      | some h0 => exact ⟨h0, rfl⟩
    have hextv : isExternalHref href0 = true := by
      rw [hv] at hext
      simpa using hext
    have hnA : ((transformA a0).map Prod.fst).Nodup := transformA_keysNodup hn
    have hnB : (((transformA a0).filter
        (fun p => keepAttr "a" p.1 p.2)).map Prod.fst).Nodup :=
      filter_keysNodup _ hnA
    have hhrefA : lookupAttr (transformA a0) "href" = some href0 := by
      have hm : ("href", href0) ∈ a0 := lookupAttr_mem hv
      have hmA : ("href", href0) ∈ transformA a0 :=
        (transformA_mem_other (by decide) (by decide) a0).mpr hm
      exact mem_lookupAttr hnA hmA
    have hhrefB : lookupAttr ((transformA a0).filter
        (fun p => keepAttr "a" p.1 p.2)) "href" = some href0 := by
      apply mem_lookupAttr hnB
      exact List.mem_filter.mpr ⟨lookupAttr_mem hhrefA,
        keepAttr_href_external hextv⟩
    have hrelA := transformA_rel hext
    have hrelB : lookupAttr ((transformA a0).filter
        (fun p => keepAttr "a" p.1 p.2)) "rel" =
        some (joinSpace (insertNew (insertNew
          (setOfList (jsWords ((lookupAttr a0 "rel").getD "")))
          "noopener") "noreferrer")) := by
      apply mem_lookupAttr hnB
      exact List.mem_filter.mpr ⟨lookupAttr_mem hrelA, keepAttr_rel _⟩
    have htargetB : ∃ tv, lookupAttr ((transformA a0).filter
        (fun p => keepAttr "a" p.1 p.2)) "target" = some tv ∧
        tv.isEmpty = false := by
      by_cases hfal : jsFalsy (lookupAttr a0 "target") = true
      · refine ⟨"_blank", ?_, rfl⟩
        apply mem_lookupAttr hnB
        exact List.mem_filter.mpr
          ⟨lookupAttr_mem (transformA_target_blank hext hfal), keepAttr_target _⟩
      · have hfal' : jsFalsy (lookupAttr a0 "target") = false :=
          Bool.eq_false_iff.mpr hfal
        cases ht : lookupAttr a0 "target" with
        | none => rw [ht] at hfal'; exact absurd hfal' (by decide)
        | some tv =>
          refine ⟨tv, ?_, ?_⟩
          · apply mem_lookupAttr hnB
            refine List.mem_filter.mpr ⟨lookupAttr_mem ?_, keepAttr_target _⟩
            rw [transformA_target_keep hext hfal']
            exact ht
          · rw [ht] at hfal'
            simpa [jsFalsy] using hfal'
    obtain ⟨tv, htv, htvne⟩ := htargetB
    exact transformA_fixed hnB hhrefB hextv hrelB htv htvne
  · have hf : isExternalHref ((lookupAttr a0 "href").getD "") = false :=
      Bool.eq_false_iff.mpr hext
    rw [transformA_not_external hf]
    apply transformA_not_external
    cases hl : lookupAttr (a0.filter (fun p => keepAttr "a" p.1 p.2)) "href" with
    | none => rfl
    | some v =>
      have hmem0 : ("href", v) ∈ a0 :=
        List.mem_of_mem_filter (lookupAttr_mem hl)
      have hva : lookupAttr a0 "href" = some v := mem_lookupAttr hn hmem0
      rw [hva] at hf
      simpa using hf

/-- Unfolding the per-element sanitizer on an anchor. -/
theorem sanitizeElem_a (attrs : List (String × String)) :
    sanitizeElem ⟨"a", attrs⟩ =
      ⟨"a", (transformA (dedupAttribs attrs)).filter
        (fun p => keepAttr "a" p.1 p.2)⟩ := rfl

/-- Unfolding the per-element sanitizer on a non-anchor. -/
theorem sanitizeElem_not_a {tag : String} (h : (tag == "a") = false)
    (attrs : List (String × String)) :
    sanitizeElem ⟨tag, attrs⟩ =
      ⟨tag, (dedupAttribs attrs).filter (fun p => keepAttr tag p.1 p.2)⟩ := by
  unfold sanitizeElem
  simp [h]

/-- The per-element sanitizer is idempotent. -/
theorem sanitizeElem_idem (e : Elem) :
    sanitizeElem (sanitizeElem e) = sanitizeElem e := by
  obtain ⟨tag, attrs⟩ := e
  by_cases htag : (tag == "a") = true
  · obtain rfl := eq_of_beq htag
    rw [sanitizeElem_a attrs, sanitizeElem_a]
    congr 1
    have hn0 := dedupAttribs_keysNodup attrs
    have hnB := filter_keysNodup (fun p => keepAttr "a" p.1 p.2)
      (transformA_keysNodup hn0)
    rw [dedupAttribs_eq_self hnB]
    rw [transformA_of_sanitized hn0]
    exact filter_idem _ _
  · have hf : (tag == "a") = false := Bool.eq_false_iff.mpr htag
    rw [sanitizeElem_not_a hf attrs, sanitizeElem_not_a hf]
    congr 1
    have hn0 := dedupAttribs_keysNodup attrs
    rw [dedupAttribs_eq_self (filter_keysNodup _ hn0)]
    exact filter_idem _ _

/-! ### Claim theorems: the sanitization stage -/

/-- C3: the sanitization stage is idempotent — running the fixed policy
(allowed tags, allowed attributes, allowed schemes, and the anchor
transform) over its own output changes nothing. -/
theorem claim3_sanitize_idempotent (es : List Elem) :
    sanitizeElems (sanitizeElems es) = sanitizeElems es := by
  unfold sanitizeElems
  have hfix : ((es.filter (fun e => allowedTags.contains e.tag)).map
        sanitizeElem).filter (fun e => allowedTags.contains e.tag) =
      (es.filter (fun e => allowedTags.contains e.tag)).map sanitizeElem := by
    rw [List.filter_eq_self]
    intro a ha
    rcases List.mem_map.mp ha with ⟨e0, he0, rfl⟩
    rw [show (sanitizeElem e0).tag = e0.tag from rfl]
    exact (List.mem_filter.mp he0).2
  rw [hfix, List.map_map]
  refine List.map_congr_left ?_
  intro e _
  simp only [Function.comp_apply]
  exact sanitizeElem_idem e

/-- C1: every anchor in sanitized output whose `href` is an absolute
http/https URL carries both `noopener` and `noreferrer` among its `rel`
tokens; the transform merges them with the author's `rel` tokens,
de-duplicated; `target` defaults to `_blank` exactly when the author's
`target` was unset (or empty, hence falsy); and anchors whose `href` is
not absolute http/https are left untouched by the transform. -/
theorem claim1_anchor_rel_target :
    (∀ (es : List Elem) (e : Elem), e ∈ sanitizeElems es → e.tag = "a" →
      ∀ href, lookupAttr e.attribs "href" = some href →
        isExternalHref href = true →
        "noopener" ∈ jsWords ((lookupAttr e.attribs "rel").getD "") ∧
        "noreferrer" ∈ jsWords ((lookupAttr e.attribs "rel").getD "")) ∧
    (∀ a : List (String × String),
      isExternalHref ((lookupAttr a "href").getD "") = true →
      ((jsWords ((lookupAttr (transformA a) "rel").getD "")).Nodup ∧
        (∀ t, t ∈ jsWords ((lookupAttr (transformA a) "rel").getD "") ↔
          t ∈ jsWords ((lookupAttr a "rel").getD "") ∨
          t = "noopener" ∨ t = "noreferrer") ∧
        (jsFalsy (lookupAttr a "target") = true →
          lookupAttr (transformA a) "target" = some "_blank"))) ∧
    (∀ a : List (String × String),
      isExternalHref ((lookupAttr a "href").getD "") = false →
      transformA a = a) := by
  refine ⟨?_, ?_, ?_⟩
  · intro es e he htag href hhref hext
    unfold sanitizeElems at he
    rcases List.mem_map.mp he with ⟨e0, he0, rfl⟩
    obtain ⟨tag0, attrs0⟩ := e0
    have htag0 : tag0 = "a" := htag
    subst htag0
    have hmem : ("href", href) ∈ (transformA (dedupAttribs attrs0)).filter
        (fun p => keepAttr "a" p.1 p.2) := lookupAttr_mem hhref
    have hn0 := dedupAttribs_keysNodup attrs0
    have hnA := transformA_keysNodup hn0
    have hnB := filter_keysNodup (fun p => keepAttr "a" p.1 p.2) hnA
    by_cases hext0 : isExternalHref
        ((lookupAttr (dedupAttribs attrs0) "href").getD "") = true
    · have hrelB : lookupAttr ((transformA (dedupAttribs attrs0)).filter
          (fun p => keepAttr "a" p.1 p.2)) "rel" =
          some (joinSpace (insertNew (insertNew
            (setOfList (jsWords
              ((lookupAttr (dedupAttribs attrs0) "rel").getD "")))
            "noopener") "noreferrer")) := by
        apply mem_lookupAttr hnB
        exact List.mem_filter.mpr
          ⟨lookupAttr_mem (transformA_rel hext0), keepAttr_rel _⟩
      show "noopener" ∈ jsWords ((lookupAttr
          ((transformA (dedupAttribs attrs0)).filter
            (fun p => keepAttr "a" p.1 p.2)) "rel").getD "") ∧
        "noreferrer" ∈ jsWords ((lookupAttr
          ((transformA (dedupAttribs attrs0)).filter
            (fun p => keepAttr "a" p.1 p.2)) "rel").getD "")
      rw [hrelB]
      simp only [Option.getD_some]
      rw [jsWords_joinSpace _ (relSet_good _)]
      exact ⟨mem_insertNew.mpr (Or.inl insertNew_mem_self),
        insertNew_mem_self⟩
    · exfalso
      have hf : isExternalHref
          ((lookupAttr (dedupAttribs attrs0) "href").getD "") = false :=
        Bool.eq_false_iff.mpr hext0
      rw [transformA_not_external hf] at hmem
      have hva : lookupAttr (dedupAttribs attrs0) "href" = some href :=
        mem_lookupAttr hn0 (List.mem_of_mem_filter hmem)
      rw [hva] at hf
      simp only [Option.getD_some] at hf
      rw [hext] at hf
      exact Bool.noConfusion hf
  · intro a hext
    refine ⟨?_, ?_, transformA_target_blank hext⟩
    · rw [transformA_rel hext]
      simp only [Option.getD_some]
      rw [jsWords_joinSpace _ (relSet_good _)]
      exact relSet_nodup _
    · intro t
      rw [transformA_rel hext]
      simp only [Option.getD_some]
      rw [jsWords_joinSpace _ (relSet_good _)]
      rw [mem_insertNew, mem_insertNew, setOfList_mem]
      tauto
  · intro a hf
    exact transformA_not_external hf

set_option maxRecDepth 10000 in
/-- Witness for C1: a concrete anchor with an author `rel` of `me` comes
out of the sanitizer carrying both safety tokens. -/
theorem claim1_witness :
    "noopener" ∈ jsWords ((lookupAttr (Elem.mk "a"
        [("href", "http://x"), ("rel", "me noopener noreferrer"),
         ("target", "_blank")]).attribs "rel").getD "") ∧
    "noreferrer" ∈ jsWords ((lookupAttr (Elem.mk "a"
        [("href", "http://x"), ("rel", "me noopener noreferrer"),
         ("target", "_blank")]).attribs "rel").getD "") :=
  claim1_anchor_rel_target.1
    [⟨"a", [("href", "http://x"), ("rel", " me  noopener ")]⟩]
    ⟨"a", [("href", "http://x"), ("rel", "me noopener noreferrer"),
           ("target", "_blank")]⟩
    (by decide) rfl "http://x" (by decide) (by decide)

/-- C2: the sanitized output never contains an anchor whose `href` has a
scheme outside http/https/mailto, nor an image whose `src` has a scheme
outside http/https/data (offending attributes are removed by filtering);
images are the only tag whose per-tag override additionally allows the
`data:` scheme. -/
theorem claim2_scheme_enforced :
    (∀ (es : List Elem) (e : Elem), e ∈ sanitizeElems es →
      (e.tag = "a" → ∀ v s, lookupAttr e.attribs "href" = some v →
        urlScheme v = some s → s ∈ (["http", "https", "mailto"] : List String)) ∧
      (e.tag = "img" → ∀ v s, lookupAttr e.attribs "src" = some v →
        urlScheme v = some s → s ∈ (["http", "https", "data"] : List String))) ∧
    allowedSchemesFor "img" = ["http", "https", "data"] ∧
    (∀ tag : String, tag ≠ "img" →
      allowedSchemesFor tag = ["http", "https", "mailto"]) := by
  refine ⟨?_, rfl, ?_⟩
  · intro es e he
    unfold sanitizeElems at he
    rcases List.mem_map.mp he with ⟨e0, he0, rfl⟩
    obtain ⟨tag0, attrs0⟩ := e0
    constructor
    · intro htag v s hval hscheme
      have htag0 : tag0 = "a" := htag
      subst htag0
      have hmem : ("href", v) ∈ (transformA (dedupAttribs attrs0)).filter
          (fun p => keepAttr "a" p.1 p.2) := lookupAttr_mem hval
      have hkeep : keepAttr "a" "href" v = true :=
        (List.mem_filter.mp hmem).2
      unfold keepAttr at hkeep
      rw [Bool.and_eq_true] at hkeep
      obtain ⟨_, hB⟩ := hkeep
      rw [if_pos (show ("href" == "href" || "href" == "src") = true
        from rfl)] at hB
      rw [hscheme] at hB
      exact List.elem_iff.mp hB
    · intro htag v s hval hscheme
      have htag0 : tag0 = "img" := htag
      subst htag0
      have hmem : ("src", v) ∈ (dedupAttribs attrs0).filter
          (fun p => keepAttr "img" p.1 p.2) := lookupAttr_mem hval
      have hkeep : keepAttr "img" "src" v = true :=
        (List.mem_filter.mp hmem).2
      unfold keepAttr at hkeep
      rw [Bool.and_eq_true] at hkeep
      obtain ⟨_, hB⟩ := hkeep
      rw [if_pos (show ("src" == "href" || "src" == "src") = true
        from rfl)] at hB
      rw [hscheme] at hB
      exact List.elem_iff.mp hB
  · intro tag h
    unfold allowedSchemesFor
    rw [if_neg (fun hc => h (eq_of_beq hc))]

set_option maxRecDepth 10000 in
/-- Witness for C2: a data-URL image passes the sanitizer and its scheme
is in the image allowlist. -/
theorem claim2_witness :
    ("data" : String) ∈ (["http", "https", "data"] : List String) :=
  ((claim2_scheme_enforced.1
      [⟨"img", [("src", "data:image/png;base64,xx")]⟩]
      ⟨"img", [("src", "data:image/png;base64,xx")]⟩ (by decide)).2
    rfl "data:image/png;base64,xx" "data" (by decide) (by decide))

end MdPipeline
